import Mathlib

/-!
Verification development for the law-links recognition service (`main.py`).

The core pipeline of `detect_links` is embedded shallowly:

* pure string helpers (`normalize_text`, `parse_values`,
  `_split_by_commas_and_conj`, `_expand_letter_range`,
  `_expand_numeric_range`, `prune_less_specific`, …) are translated
  directly from the source;
* Python's `re` module is an external library.  The small fixed patterns
  used by the value parser (`[A-Za-zА-Яа-яё]`, the connector splitter
  `\s*(?:,|;|и\/или|либо|или|и)\s*`, `[ \t]{2,}`) are modelled concretely
  and executably; the large compiled citation patterns are modelled by an
  abstract matcher parameter `Finditer`, so theorems about `detect_links`
  quantify over every possible matcher output and in particular over the
  behaviour of the real engine;
* Python exceptions (`int` raising `ValueError`) are modelled by `Option`:
  a `none` result of `parse_values`/`detect_links` corresponds to the
  Python call raising.

Strings are processed as their underlying `List Char`; only the
character ranges that the source's regexes mention (ASCII, Cyrillic)
need case mapping, so `pyLower` implements `str.lower` on those ranges.
-/

/-- Models `str.lower` on the character ranges relevant to the source
(ASCII letters, the basic Cyrillic block and Ё); other characters are
returned unchanged. -/
def pyLower (c : Char) : Char :=
  if 'A' ≤ c ∧ c ≤ 'Z' then Char.ofNat (c.toNat + 32)
  else if 'А' ≤ c ∧ c ≤ 'Я' then Char.ofNat (c.toNat + 32)
  else if c = 'Ё' then 'ё'
  else c

/-- Character class of the literal regex `[ \t]` used by `normalize_text`'s
whitespace squeeze `re.sub(r"[ \t]{2,}", " ", s)`. -/
def isSpaceTab (c : Char) : Bool :=
  c = ' ' || c = '\t'

/-- Models Python's `\s` / `str.strip()` whitespace on the Latin-1 range. -/
def isPyWs (c : Char) : Bool :=
  c = ' ' || c = '\t' || c = '\n' || c = '\r' || c = '\x0b' || c = '\x0c' ||
  c = '\x85' || c = '\xa0'

/-- Character class of `_is_letter`'s regex `[A-Za-zА-Яа-яё]` (note: the
uppercase Ё is not in this class, exactly as in the source). -/
def isLetterChar (c : Char) : Bool :=
  ('A' ≤ c && c ≤ 'Z') || ('a' ≤ c && c ≤ 'z') ||
  ('А' ≤ c && c ≤ 'Я') || ('а' ≤ c && c ≤ 'я') || c = 'ё'

/-- Character class of the regex `[a-z]` used by `is_lat` inside
`_expand_letter_range`. -/
def isLatChar (c : Char) : Bool :=
  'a' ≤ c && c ≤ 'z'

/-- Lowercase letters of the two alphabets handled by the range expander. -/
def isLowercaseLetter (c : Char) : Bool :=
  ('a' ≤ c && c ≤ 'z') || ('а' ≤ c && c ≤ 'я') || c = 'ё'

/-- Models `str.strip()` on a character list. -/
def stripList (l : List Char) : List Char :=
  ((l.dropWhile isPyWs).reverse.dropWhile isPyWs).reverse

/-- Models `str.strip()`. -/
def pyStrip (s : String) : String :=
  String.mk (stripList s.data)

/-- Models `str.lower()`. -/
def pyLowerStr (s : String) : String :=
  String.mk (s.data.map pyLower)

/-- Models `x.split(".")`: splits at every dot, keeping empty pieces. -/
def splitOnDot (l : List Char) : List (List Char) :=
  l.foldr
    (fun c acc =>
      match acc with
      | cur :: rest => if c = '.' then [] :: cur :: rest else (c :: cur) :: rest
      | [] => [[c]])
    [[]]

/-- Digit run with single underscores between digits, as accepted by
Python's `int()`; returns the accumulated value. -/
def digitsValAux (acc : Nat) : List Char → Option Nat
  | [] => some acc
  | c :: rest =>
    if c.isDigit then digitsValAux (acc * 10 + (c.toNat - 48)) rest
    else if c = '_' then
      match rest with
      | d :: rest' =>
        if d.isDigit then digitsValAux (acc * 10 + (d.toNat - 48)) rest'
        else none
      | [] => none
    else none

/-- Nonempty digit run (must begin with a digit, not an underscore). -/
def digitsStart : List Char → Option Nat
  | [] => none
  | c :: rest => if c.isDigit then digitsValAux (c.toNat - 48) rest else none

/-- Models Python's `int(str)`: optional surrounding whitespace, optional
sign, then ASCII digits with optional single underscores between digits.
A `none` result corresponds to `int` raising `ValueError`. -/
def toIntPy (s : String) : Option Int :=
  match stripList s.data with
  | '+' :: rest => (digitsStart rest).map Int.ofNat
  | '-' :: rest => (digitsStart rest).map (fun n => -(n : Int))
  | rest => (digitsStart rest).map Int.ofNat

/-- Decimal digits of a positive number, most significant first. -/
def natToStrAux : Nat → Nat → List Char
  | 0, _ => []
  | f + 1, n => if n = 0 then [] else natToStrAux f (n / 10) ++ [Char.ofNat (48 + n % 10)]

/-- Models Python's `str` on a natural number. -/
def natToStr (n : Nat) : String :=
  if n = 0 then "0" else String.mk (natToStrAux (n + 1) n)

/-- Models Python's `str` on an integer. -/
def intToStr : Int → String
  | Int.ofNat n => natToStr n
  | Int.negSucc m => "-" ++ natToStr (m + 1)

/-- Models `list.index`: index of the first occurrence, if any. -/
def idxOfAux (c : Char) : List Char → Option Nat
  | [] => none
  | d :: rest =>
    if d = c then some 0 else (idxOfAux c rest).map (· + 1)

/-- Models `list.insert(n, c)`. -/
def insertAt (n : Nat) (c : Char) (l : List Char) : List Char :=
  l.take n ++ c :: l.drop n

/-- Models `[str(t) for t in levels]` joined with `"."` (`join_levels`). -/
def join_levels : List Int → String
  | [] => ""
  | [x] => intToStr x
  | x :: rest => intToStr x ++ "." ++ join_levels rest

/-- Models Python's `range(a, b + 1)` over integers (empty when `b < a`). -/
def intRangeIncl (a b : Int) : List Int :=
  (List.range (b - a + 1).toNat).map (fun k => a + (k : Int))

/-!
Normalizer (`normalize_text`, lines 91–98 of `main.py`).

The chained single-character `str.replace`s over `QUOTE_CHARS` and
`DASH_CHARS` are a character map (all sources are distinct single
characters and no target is a source that maps elsewhere), and the final
`re.sub(r"[ \t]{2,}", " ", s)` replaces every maximal run of two or more
spaces/tabs by one space, leaving single spaces/tabs alone.
-/

/-- Character map of `QUOTE_CHARS` followed by `DASH_CHARS`. -/
def foldChar (c : Char) : Char :=
  if c = '«' ∨ c = '»' ∨ c = '“' ∨ c = '”' ∨ c = '„' ∨ c = '‟' ∨ c = '‚' then '"'
  else if c = '′' then '\''
  else if c = '–' ∨ c = '—' ∨ c = '-' then '-'
  else c

/-- Pending-whitespace-run state of the squeezer: `none` = not in a run,
`some (some c)` = a run of exactly one character `c`,
`some none` = a run of length at least two. -/
def flushRun : Option (Option Char) → List Char
  | none => []
  | some (some c) => [c]
  | some none => [' ']

/-- State machine for `re.sub(r"[ \t]{2,}", " ", s)`: maximal `[ \t]` runs
of length ≥ 2 become a single space, shorter runs are kept verbatim. -/
def sqAux : Option (Option Char) → List Char → List Char
  | st, [] => flushRun st
  | st, c :: rest =>
    if isSpaceTab c then
      match st with
      | none => sqAux (some (some c)) rest
      | some _ => sqAux (some none) rest
    else
      flushRun st ++ c :: sqAux none rest

/-- Embeds `normalize_text`: quote folding, dash folding, whitespace
squeezing (newlines untouched). -/
def normalize_text (s : String) : String :=
  String.mk (sqAux none (s.data.map foldChar))

/-!
Enumeration splitter (`_split_by_commas_and_conj`, lines 313–327).

`re.split(r"\s*(?:,|;|и\/или|либо|или|и)\s*", s, flags=re.IGNORECASE)`
is modelled by a left-to-right scan: at each position, try to match
optional whitespace followed by one of the connector alternatives (in the
pattern's alternation order, case-insensitively) followed by optional
whitespace; the leftmost success splits the string there.
-/

/-- Case-insensitive literal match: `pat` is given lowercase, the subject
characters are lowered by `pyLower`; returns the remainder on success. -/
def matchLit : List Char → List Char → Option (List Char)
  | [], rest => some rest
  | _ :: _, [] => none
  | p :: ps, c :: rest => if pyLower c = p then matchLit ps rest else none

/-- The connector alternatives `, ; и/или либо или и` in the pattern's
alternation order. -/
def connPatterns : List (List Char) :=
  [[','], [';'], ['и', '/', 'и', 'л', 'и'], ['л', 'и', 'б', 'о'], ['и', 'л', 'и'], ['и']]

/-- Tries the connector alternatives in order at the head of the list
(the first alternative that matches wins, as in the regex engine). -/
def connAt (l : List Char) : Option (List Char) :=
  connPatterns.findSome? (fun p => matchLit p l)

/-- Tries to match `\s*(?:,|;|и\/или|либо|или|и)\s*` at the head of the
list, returning the remainder after the (greedy) trailing whitespace. -/
def trySep (l : List Char) : Option (List Char) :=
  match connAt (l.dropWhile isPyWs) with
  | some rem => some (rem.dropWhile isPyWs)
  | none => none

/-- Scanner for `re.split` with the connector pattern; `fuel` bounds the
recursion (a separator always consumes at least one character, so an
initial fuel of the input length suffices and the fuel-exhausted branch
is never reached). -/
def reSplitAux : Nat → List Char → List Char → List (List Char)
  | _, acc, [] => [acc.reverse]
  | 0, acc, l => [acc.reverse ++ l]
  | fuel + 1, acc, c :: rest =>
    match trySep (c :: rest) with
    | some rem => acc.reverse :: reSplitAux fuel [] rem
    | none => reSplitAux fuel (c :: acc) rest

/-- Embeds `_split_by_commas_and_conj`: strip; empty → `[]`; a single
letter is a value, not a connector; otherwise split on the connector
pattern and drop empty pieces. -/
def split_by_commas_and_conj (s : String) : List String :=
  let t := pyStrip s
  if t = "" then []
  else if (match t.data with | [c] => isLetterChar c | _ => false) then [t]
  else ((reSplitAux t.data.length [] t.data).map String.mk).filter (fun p => p ≠ "")

/-!
Range expansion (`_expand_letter_range` lines 229–263,
`_expand_numeric_range` lines 267–309).
-/

/-- Embeds `_is_letter`: `re.fullmatch(r"[A-Za-zА-Яа-яё]", s)`. -/
def isLetterStr (s : String) : Bool :=
  match s.data with
  | [c] => isLetterChar c
  | _ => false

/-- The Latin alphabet `[chr(c) for c in range(ord('a'), ord('z')+1)]`. -/
def latAlphabet : List Char :=
  (List.range 26).map (fun k => Char.ofNat (0x61 + k))

/-- The Cyrillic alphabet: the contiguous range `а`–`я` with `ё` inserted
right after `е`, exactly as built in `_expand_letter_range.alphabet`. -/
def cyrAlphabet : List Char :=
  let rus := (List.range 32).map (fun k => Char.ofNat (0x430 + k))
  if 'ё' ∈ rus then rus
  else
    match idxOfAux 'е' rus with
    | some i => insertAt (i + 1) 'ё' rus
    | none => rus

/-- Embeds `_expand_letter_range`.  The `try: alpha.index … except
ValueError: return [a, b]` is modelled by `idxOfAux` returning `none`. -/
def expand_letter_range (a b : String) : List String :=
  match (pyLowerStr a).data, (pyLowerStr b).data with
  | [ca], [cb] =>
    if !(isLetterChar ca && isLetterChar cb) then [a, b]
    else if isLatChar ca != isLatChar cb then [a, b]
    else
      let alpha := if isLatChar ca then latAlphabet else cyrAlphabet
      match idxOfAux ca alpha, idxOfAux cb alpha with
      | some ia, some ib =>
        let lo := if ib < ia then ib else ia
        let hi := if ib < ia then ia else ib
        ((alpha.drop lo).take (hi + 1 - lo)).map (fun c => String.mk [c])
      | _, _ => [a, b]
  | _, _ => [a, b]

/-- Embeds `parse_levels`: `[int(t) for t in x.split(".")]`; `none`
corresponds to `int` raising `ValueError`. -/
def parse_levels (s : String) : Option (List Int) :=
  (splitOnDot s.data).foldr
    (fun piece acc =>
      match toIntPy (String.mk piece), acc with
      | some v, some vs => some (v :: vs)
      | _, _ => none)
    (some [])

/-- Embeds `_expand_numeric_range`; `none` corresponds to an uncaught
`ValueError` from `int`. -/
def expand_numeric_range (a b : String) : Option (List String) :=
  if isLetterStr a || isLetterStr b then some [a, b]
  else
    match parse_levels a with
    | none => none
    | some aL =>
      if b.data.contains '.' then
        match parse_levels b with
        | none => none
        | some bL =>
          if aL.length = bL.length ∧ aL.dropLast = bL.dropLast then
            match aL.getLast?, bL.getLast? with
            | some s0, some e0 =>
              let lo := if e0 < s0 then e0 else s0
              let hi := if e0 < s0 then s0 else e0
              some ((intRangeIncl lo hi).map (fun k => join_levels (aL.dropLast ++ [k])))
            | _, _ => none
          else some [a, b]
      else
        if a.data.contains '.' then
          match toIntPy b, aL.getLast? with
          | some bLast, some aLast =>
            let lo := if bLast < aLast then bLast else aLast
            let hi := if bLast < aLast then aLast else bLast
            some ((intRangeIncl lo hi).map (fun k => join_levels (aL.dropLast ++ [k])))
          | _, _ => none
        else
          match toIntPy a, toIntPy b with
          | some a0, some b0 =>
            let lo := if b0 < a0 then b0 else a0
            let hi := if b0 < a0 then a0 else b0
            some ((intRangeIncl lo hi).map intToStr)
          | _, _ => none

/-!
Value parsing (`parse_values`, lines 330–358).
-/

/-- Embeds `p.split("-", 1)` followed by stripping both parts (only called
when `p` contains a hyphen). -/
def splitFirstHyphen (p : String) : String × String :=
  let pre := p.data.takeWhile (fun c => c ≠ '-')
  let post := (p.data.dropWhile (fun c => c ≠ '-')).drop 1
  (String.mk (stripList pre), String.mk (stripList post))

/-- The seen-set deduplication loop used both by `parse_values` and by
`detect_links` (keep the first occurrence of each value). -/
def dedupSeenAux {α : Type} [DecidableEq α] (seen : List α) : List α → List α
  | [] => []
  | x :: xs =>
    if x ∈ seen then dedupSeenAux seen xs
    else x :: dedupSeenAux (x :: seen) xs

/-- The main loop of `parse_values` over the split pieces; `none`
corresponds to a `ValueError` escaping from `_expand_numeric_range`. -/
def parseValuesCore (expand_hyphens : Bool) : List String → Option (List String)
  | [] => some []
  | p :: rest =>
    let q := pyStrip p
    if q.data.contains '-' && expand_hyphens then
      let ab := splitFirstHyphen q
      match
        (if isLetterStr ab.1 && isLetterStr ab.2
         then some (expand_letter_range ab.1 ab.2)
         else expand_numeric_range ab.1 ab.2) with
      | none => none
      | some vals =>
        match parseValuesCore expand_hyphens rest with
        | none => none
        | some tail => some (vals ++ tail)
    else
      match parseValuesCore expand_hyphens rest with
      | none => none
      | some tail => some (q :: tail)

/-- Embeds `parse_values`: split an enumeration, expand hyphen ranges
for points/subpoints (`expand_hyphens = true`) but not for articles,
deduplicate preserving first occurrence.  `none` models the call raising
`ValueError`; `chunk = none`/empty models a missing capture. -/
def parse_values (chunk : Option String) (expand_hyphens : Bool) : Option (List String) :=
  match chunk with
  | none => some []
  | some s =>
    if s = "" then some []
    else
      match parseValuesCore expand_hyphens (split_by_commas_and_conj s) with
      | none => none
      | some out => some (dedupSeenAux [] out)

/-!
Matcher model and the `detect_links` pipeline (lines 415–543).
-/

/-- Span of a match in the normalized text, `(start, end)` half-open. -/
abbrev Span := Nat × Nat

/-- The alias dictionary `{law_id string → list of aliases}` as loaded
from JSON. -/
abbrev AliasDict := List (String × List String)

/-- The view of one `re.Match` that `detect_links` consumes: its span and
the captured groups.  `lawId` models `extract_law_id_from_match` applied
to the match's groupdict (`none` when no `LID_*` group is non-empty);
the three `Vals` fields model `gd.get(...)` (a `none` is an absent
capture, `some ""` an empty one). -/
structure ReMatch where
  mstart : Nat
  mend : Nat
  lawId : Option Nat
  articleVals : Option String
  pointVals : Option String
  subpVals : Option String
deriving DecidableEq

/-- One Cartesian-product expansion carried to the pruner. -/
structure RawItem where
  law_id : Nat
  article : Option String
  point : Option String
  subpoint : Option String
  span : Span
deriving DecidableEq

/-- The final citation record. -/
structure ParsedRef where
  law_id : Nat
  article : Option String
  point : Option String
  subpoint : Option String
deriving DecidableEq

/-- Embeds `spans_overlap`: half-open intervals share a position. -/
def spans_overlap (a b : Span) : Bool :=
  !(a.2 ≤ b.1 || b.2 ≤ a.1)

/-- The retention predicate of `prune_less_specific`: an item is dropped
iff it has no subpoint and some item with the same `(law_id, article,
point)` has a subpoint and an overlapping span. -/
def keepItem (items : List RawItem) (a : RawItem) : Bool :=
  !(a.subpoint = none &&
    items.any (fun b =>
      b.law_id = a.law_id && b.article = a.article && b.point = a.point &&
      b.subpoint ≠ none && spans_overlap a.span b.span))

/-- Embeds `prune_less_specific` (the source groups by key and marks by
object identity; since the drop decision depends only on an item's own
fields and the whole list, it is the filter below). -/
def prune_less_specific (items : List RawItem) : List RawItem :=
  items.filter (keepItem items)

/-- Projection to the deduplication key / final record. -/
def toRef (it : RawItem) : ParsedRef :=
  ⟨it.law_id, it.article, it.point, it.subpoint⟩

/-- Embeds `art_vals or [None]`: an empty axis becomes `[None]`. -/
def axisOr (vals : List String) : List (Option String) :=
  if vals.isEmpty then [none] else vals.map some

/-- The Cartesian expansion `product(arts, pnts, subs)` of one match, in
`itertools.product` iteration order. -/
def cartItems (lid : Nat) (arts pnts subs : List (Option String)) (sp : Span) : List RawItem :=
  arts.flatMap (fun a => pnts.flatMap (fun p => subs.map (fun s => ⟨lid, a, p, s, sp⟩)))

/-- The match-processing loop of `detect_links` (step 3): skip matches
with no law id, parse the three captures, emit the Cartesian product;
`none` models an exception escaping from `parse_values`. -/
def rawItemsOfMatches : List ReMatch → Option (List RawItem)
  | [] => some []
  | m :: ms =>
    match m.lawId with
    | none => rawItemsOfMatches ms
    | some lid =>
      match parse_values m.articleVals false, parse_values m.pointVals true,
            parse_values m.subpVals true with
      | some arts, some pnts, some subs =>
        match rawItemsOfMatches ms with
        | none => none
        | some rest =>
          some (cartItems lid (axisOr arts) (axisOr pnts) (axisOr subs) (m.mstart, m.mend) ++ rest)
      | _, _, _ => none

/-- Sort key order of `matches.sort(key=lambda t: (t[0], t[1]))`:
lexicographic on `(start, end)`. -/
def matchLe (x y : ReMatch) : Prop :=
  x.mstart < y.mstart ∨ (x.mstart = y.mstart ∧ x.mend ≤ y.mend)

instance : DecidableRel matchLe := fun x y =>
  inferInstanceAs (Decidable (_ ∨ _))

instance : IsTotal ReMatch matchLe :=
  ⟨fun a b => by unfold matchLe; omega⟩

instance : IsTrans ReMatch matchLe :=
  ⟨fun a b c => by unfold matchLe; omega⟩

/-- Lexicographic order on spans (the claim's ascending `(start, end)`). -/
def spanLe (s t : Span) : Prop :=
  s.1 < t.1 ∨ (s.1 = t.1 ∧ s.2 ≤ t.2)

/-- Abstraction of the regex engine: given the alias dictionary (from
which the source builds its three compiled patterns) and the normalized
text, produce the concatenated `finditer` hits of the three patterns in
their fixed order.  Theorems quantify over `fi`, hence hold for whatever
the real engine returns. -/
abbrev Finditer := AliasDict → String → List ReMatch

/-- Steps 1–2 of `detect_links`: normalize the text, collect all matches,
and sort them stably by `(start, end)` (Python's stable `list.sort` and
a stable insertion sort by the same key agree). -/
def sortedMatches (fi : Finditer) (text : String) (codex_aliases : AliasDict) : List ReMatch :=
  List.insertionSort matchLe (fi codex_aliases (normalize_text text))

/-- Embeds `detect_links`: normalize, match, sort, expand, prune,
deduplicate.  `none` models the Python call raising an exception. -/
def detect_links (fi : Finditer) (text : String) (codex_aliases : AliasDict) :
    Option (List ParsedRef) :=
  match rawItemsOfMatches (sortedMatches fi text codex_aliases) with
  | none => none
  | some raw => some (dedupSeenAux [] ((prune_less_specific raw).map toRef))

/-- Specification-level first-occurrence deduplication, written
independently of the seen-set loop: keep the head, delete its later
duplicates, recurse. -/
def specFirstOccur {α : Type} [DecidableEq α] : List α → List α
  | [] => []
  | x :: xs => x :: specFirstOccur (xs.filter (fun y => y ≠ x))
termination_by l => l.length
decreasing_by
  simp only [List.length_cons]
  exact Nat.lt_succ_of_le (List.length_filter_le _ _)

/-- No two adjacent characters are both `[ \t]` (the shape of the
squeezer's output, used to prove `normalize_text` idempotent). -/
def noRun (a b : Char) : Prop :=
  (isSpaceTab a && isSpaceTab b) = false

/-!
Generic lemmas about the embedded helpers.
-/

/-- Mapping a function that fixes every element of a list is the identity. -/
theorem list_map_fixed {α : Type} (f : α → α) :
    ∀ l : List α, (∀ x ∈ l, f x = x) → l.map f = l := by
  intro l h
  induction l with
  | nil => rfl
  | cons x xs ih =>
    simp only [List.map_cons]
    rw [h x (by simp), ih (fun y hy => h y (by simp [hy]))]

/-- The normalizer's character map takes each character to itself or to
one of its three target characters. -/
theorem foldChar_cases (c : Char) :
    foldChar c = c ∨ foldChar c = '"' ∨ foldChar c = '\'' ∨ foldChar c = '-' := by
  unfold foldChar
  split_ifs <;> simp

/-- The normalizer's character map is idempotent. -/
theorem foldChar_idem (c : Char) : foldChar (foldChar c) = foldChar c := by
  rcases foldChar_cases c with h | h | h | h
  · rw [h]; exact h
  · rw [h]; decide
  · rw [h]; decide
  · rw [h]; decide

/-- Any character emitted by the whitespace squeezer is either from the
pending run, from the input, or the single replacement space. -/
theorem sqAux_mem :
    ∀ (l : List Char) (st : Option (Option Char)) (x : Char),
      x ∈ sqAux st l → x ∈ flushRun st ∨ x ∈ l ∨ x = ' ' := by
  intro l
  induction l with
  | nil =>
    intro st x hx
    exact Or.inl hx
  | cons c rest ih =>
    intro st x hx
    by_cases hc : isSpaceTab c
    · simp only [sqAux, hc, if_true] at hx
      cases st with
      | none =>
        rcases ih (some (some c)) x hx with h | h | h
        · simp only [flushRun, List.mem_singleton] at h
          exact Or.inr (Or.inl (by simp [h]))
        · exact Or.inr (Or.inl (by simp [h]))
        · exact Or.inr (Or.inr h)
      | some s =>
        rcases ih (some none) x hx with h | h | h
        · simp only [flushRun, List.mem_singleton] at h
          exact Or.inr (Or.inr h)
        · exact Or.inr (Or.inl (by simp [h]))
        · exact Or.inr (Or.inr h)
    · simp only [sqAux, hc, if_false] at hx
      rcases List.mem_append.mp hx with h | h
      · exact Or.inl h
      · rcases List.mem_cons.mp h with rfl | h'
        · exact Or.inr (Or.inl (by simp))
        · rcases ih none x h' with h'' | h'' | h''
          · simp [flushRun] at h''
          · exact Or.inr (Or.inl (by simp [h'']))
          · exact Or.inr (Or.inr h'')

/-- The squeezer's output contains no two adjacent `[ \t]` characters. -/
theorem sqAux_chain :
    ∀ (l : List Char) (st : Option (Option Char)), List.Chain' noRun (sqAux st l) := by
  intro l
  induction l with
  | nil =>
    intro st
    rcases st with _ | (_ | c)
    · exact List.chain'_nil
    · exact List.chain'_singleton _
    · exact List.chain'_singleton _
  | cons c rest ih =>
    intro st
    by_cases hc : isSpaceTab c = true
    · simp only [sqAux, hc, if_true]
      cases st with
      | none => exact ih (some (some c))
      | some s => exact ih (some none)
    · rw [Bool.not_eq_true] at hc
      have hcons : List.Chain' noRun (c :: sqAux none rest) := by
        rw [List.chain'_cons']
        exact ⟨fun y _ => by simp [noRun, hc], ih none⟩
      rcases st with _ | (_ | d)
      · simpa only [sqAux, hc, Bool.false_eq_true, if_false, flushRun,
          List.nil_append] using hcons
      · simp only [sqAux, hc, Bool.false_eq_true, if_false, flushRun,
          List.singleton_append]
        rw [List.chain'_cons']
        refine ⟨fun y hy => ?_, hcons⟩
        simp only [List.head?_cons, Option.mem_def, Option.some.injEq] at hy
        subst hy
        simp [noRun, hc]
      · simp only [sqAux, hc, Bool.false_eq_true, if_false, flushRun,
          List.singleton_append]
        rw [List.chain'_cons']
        refine ⟨fun y hy => ?_, hcons⟩
        simp only [List.head?_cons, Option.mem_def, Option.some.injEq] at hy
        subst hy
        simp [noRun, hc]

/-- On inputs with no adjacent `[ \t]` pair the squeezer is the identity
(both from the empty state and from a one-character pending run). -/
theorem sqAux_fix :
    ∀ l : List Char,
      (List.Chain' noRun l → sqAux none l = l) ∧
      (∀ c, isSpaceTab c = true → List.Chain' noRun (c :: l) →
        sqAux (some (some c)) l = c :: l) := by
  intro l
  induction l with
  | nil =>
    exact ⟨fun _ => rfl, fun c _ _ => rfl⟩
  | cons x rest ih =>
    constructor
    · intro hch
      by_cases hx : isSpaceTab x = true
      · simp only [sqAux, hx, if_true]
        exact ih.2 x hx hch
      · rw [Bool.not_eq_true] at hx
        simp only [sqAux, hx, Bool.false_eq_true, if_false, flushRun, List.nil_append]
        rw [ih.1 hch.tail]
    · intro c hc hch
      have hcx : noRun c x := (List.chain'_cons.mp hch).1
      have hx : isSpaceTab x = false := by
        unfold noRun at hcx
        rcases Bool.and_eq_false_iff.mp hcx with h | h
        · rw [hc] at h; cases h
        · exact h
      simp only [sqAux, hx, Bool.false_eq_true, if_false, flushRun, List.singleton_append]
      rw [ih.1 hch.tail.tail]

/-- The text normalizer is idempotent. -/
theorem normalize_text_idem (s : String) :
    normalize_text (normalize_text s) = normalize_text s := by
  unfold normalize_text
  refine congrArg String.mk ?_
  show sqAux none ((sqAux none (s.data.map foldChar)).map foldChar) =
    sqAux none (s.data.map foldChar)
  have hfix : (sqAux none (s.data.map foldChar)).map foldChar =
      sqAux none (s.data.map foldChar) := by
    refine list_map_fixed _ _ (fun x hx => ?_)
    rcases sqAux_mem _ none x hx with h | h | h
    · simp [flushRun] at h
    · rcases List.mem_map.mp h with ⟨y, _, rfl⟩
      exact foldChar_idem y
    · subst h; decide
  rw [hfix]
  exact (sqAux_fix _).1 (sqAux_chain _ none)

/-- C6: recognition is invariant under normalization.  `detect_links`
normalizes its input before matching (for any behaviour `fi` of the
regex engine), so feeding it already-normalized text yields the same
result: `detect_links(T, A) = detect_links(normalize_text(T), A)`. -/
theorem c6_detect_links_normalize_idem (fi : Finditer) (t : String) (A : AliasDict) :
    detect_links fi t A = detect_links fi (normalize_text t) A := by
  unfold detect_links sortedMatches
  rw [normalize_text_idem]

/-- Values emitted by the seen-set deduplication loop never lie in the
initial seen set. -/
theorem dedupSeenAux_mem_not_seen {α : Type} [DecidableEq α] :
    ∀ (l seen : List α) (x : α), x ∈ dedupSeenAux seen l → x ∉ seen := by
  intro l
  induction l with
  | nil =>
    intro seen x hx
    simp [dedupSeenAux] at hx
  | cons y ys ih =>
    intro seen x hx
    by_cases hy : y ∈ seen
    · rw [show dedupSeenAux seen (y :: ys) = dedupSeenAux seen ys from by
        simp [dedupSeenAux, hy]] at hx
      exact ih seen x hx
    · rw [show dedupSeenAux seen (y :: ys) = y :: dedupSeenAux (y :: seen) ys from by
        simp [dedupSeenAux, hy]] at hx
      rcases List.mem_cons.mp hx with rfl | hx'
      · exact hy
      · intro hxs
        exact ih (y :: seen) x hx' (List.mem_cons_of_mem _ hxs)

/-- The seen-set deduplication loop produces a duplicate-free list. -/
theorem dedupSeenAux_nodup {α : Type} [DecidableEq α] :
    ∀ (l seen : List α), (dedupSeenAux seen l).Nodup := by
  intro l
  induction l with
  | nil =>
    intro seen
    simp [dedupSeenAux]
  | cons y ys ih =>
    intro seen
    by_cases hy : y ∈ seen
    · rw [show dedupSeenAux seen (y :: ys) = dedupSeenAux seen ys from by
        simp [dedupSeenAux, hy]]
      exact ih seen
    · rw [show dedupSeenAux seen (y :: ys) = y :: dedupSeenAux (y :: seen) ys from by
        simp [dedupSeenAux, hy]]
      refine List.nodup_cons.mpr ⟨fun hmem => ?_, ih (y :: seen)⟩
      exact dedupSeenAux_mem_not_seen ys (y :: seen) y hmem (by simp)

/-- C2: whatever the regex engine returns, a successful `detect_links`
call yields a list in which no two `ParsedRef` records agree on all four
fields (`law_id`, `article`, `point`, `subpoint`): the final seen-set
deduplication guarantees pairwise distinctness. -/
theorem c2_result_nodup (fi : Finditer) (t : String) (A : AliasDict)
    (res : List ParsedRef) (h : detect_links fi t A = some res) : res.Nodup := by
  unfold detect_links at h
  cases hraw : rawItemsOfMatches (sortedMatches fi t A) with
  | none => rw [hraw] at h; cases h
  | some raw =>
    rw [hraw] at h
    have : dedupSeenAux [] ((prune_less_specific raw).map toRef) = res :=
      Option.some.inj h
    rw [← this]
    exact dedupSeenAux_nodup _ _

/-- C2 witness: a concrete matcher output on which `detect_links`
succeeds, with the guaranteed duplicate-free result. -/
theorem c2_result_nodup_witness :
    detect_links (fun _ _ => [⟨0, 5, some 15, some "5", none, none⟩]) "" [("15", ["НК РФ"])]
      = some [⟨15, some "5", none, none⟩] ∧
    ([(⟨15, some "5", none, none⟩ : ParsedRef)]).Nodup := by
  refine ⟨by decide, ?_⟩
  exact c2_result_nodup (fun _ _ => [⟨0, 5, some 15, some "5", none, none⟩]) ""
    [("15", ["НК РФ"])] [⟨15, some "5", none, none⟩] (by decide)

/-- C3: in `prune_less_specific`, an item with a null subpoint is dropped
whenever some item with the same `(law_id, article, point)`, a non-null
subpoint and an overlapping span is present, and such more specific items
are always retained. -/
theorem c3_prune_drops_less_specific (items : List RawItem) (a b : RawItem)
    (ha : a ∈ items) (hasub : a.subpoint = none) (hb : b ∈ items)
    (h1 : b.law_id = a.law_id) (h2 : b.article = a.article) (h3 : b.point = a.point)
    (hbsub : b.subpoint ≠ none) (hov : spans_overlap a.span b.span = true) :
    a ∉ prune_less_specific items ∧ b ∈ prune_less_specific items := by
  constructor
  · intro hmem
    rw [prune_less_specific, List.mem_filter] at hmem
    have hkeep := hmem.2
    unfold keepItem at hkeep
    rw [Bool.not_eq_true', Bool.and_eq_false_iff] at hkeep
    rcases hkeep with h | h
    · simp [hasub] at h
    · rw [← Bool.not_eq_true, List.any_eq_true] at h
      exact h ⟨b, hb, by simp [h1, h2, h3, hbsub, hov]⟩
  · rw [prune_less_specific, List.mem_filter]
    refine ⟨hb, ?_⟩
    unfold keepItem
    simp [hbsub]

/-- C3 witness: a two-element item list in which the bare record is
pruned and the subpointed record survives. -/
theorem c3_prune_drops_less_specific_witness :
    (⟨15, some "3", some "2", none, (0, 10)⟩ : RawItem) ∉
      prune_less_specific
        [⟨15, some "3", some "2", none, (0, 10)⟩, ⟨15, some "3", some "2", some "1", (5, 12)⟩] ∧
    (⟨15, some "3", some "2", some "1", (5, 12)⟩ : RawItem) ∈
      prune_less_specific
        [⟨15, some "3", some "2", none, (0, 10)⟩, ⟨15, some "3", some "2", some "1", (5, 12)⟩] :=
  c3_prune_drops_less_specific _ _ _ (by decide) (by decide) (by decide)
    (by decide) (by decide) (by decide) (by decide) (by decide)

/-- C4: the value expander's range laws with the article/point policy:
`"1-3"` as a point expands to 1,2,3; `"43.2-6"` as a point carries the
shared dotted prefix while the last component varies; `"43.2-6"` as an
article (no hyphen expansion) is returned verbatim. -/
theorem c4_parse_values_range_laws :
    parse_values (some "1-3") true = some ["1", "2", "3"] ∧
    parse_values (some "43.2-6") true = some ["43.2", "43.3", "43.4", "43.5", "43.6"] ∧
    parse_values (some "43.2-6") false = some ["43.2-6"] :=
  ⟨by decide, by decide, by decide⟩

/-- C1: evaluation of the code at the failing input.  A point fragment
`"а"-"б"` (reachable: the `ATOM` regex admits quoted letters and `-` is a
chunk separator) drives `_expand_numeric_range` into `parse_levels`,
where `int('"а"')` raises `ValueError`; the model returns `none`, i.e.
the Python call raises instead of returning normally.  The second
conjunct replays the whole pipeline on the failing text
`п. "а"-"б" ст. 1 НК РФ` with the match that the compiled `patt_after`
produces there: `detect_links` itself fails. -/
theorem c1_parse_values_value_error :
    parse_values (some "\"а\"-\"б\"") true = none ∧
    detect_links
      (fun _ _ => [⟨0, 22, some 15, some "1", some "\"а\"-\"б\"", none⟩])
      "п. \"а\"-\"б\" ст. 1 НК РФ" [("15", ["НК РФ"])] = none :=
  ⟨by decide, by decide⟩

/-!
Letter-range lemmas for C5 and C10.
-/

/-- Every Latin-alphabet entry is a letter, `[a-z]`, and lowercase. -/
theorem latAlphabet_facts :
    ∀ c ∈ latAlphabet,
      isLetterChar c = true ∧ isLatChar c = true ∧ isLowercaseLetter c = true := by
  decide

/-- Every Cyrillic-alphabet entry is a letter, not `[a-z]`, and lowercase. -/
theorem cyrAlphabet_facts :
    ∀ c ∈ cyrAlphabet,
      isLetterChar c = true ∧ isLatChar c = false ∧ isLowercaseLetter c = true := by
  decide

/-- Lookup by `idxOfAux` succeeds on members. -/
theorem idxOfAux_some_of_mem :
    ∀ (l : List Char) (c : Char), c ∈ l → ∃ i, idxOfAux c l = some i := by
  intro l
  induction l with
  | nil => intro c hc; cases hc
  | cons d rest ih =>
    intro c hc
    by_cases hd : d = c
    · exact ⟨0, by simp [idxOfAux, hd]⟩
    · rcases List.mem_cons.mp hc with rfl | hc'
      · exact absurd rfl hd
      · obtain ⟨j, hj⟩ := ih c hc'
        exact ⟨j + 1, by simp [idxOfAux, hd, hj]⟩

/-- Lookup by `idxOfAux` returns an index holding the sought character. -/
theorem idxOfAux_getElem? :
    ∀ (l : List Char) (c : Char) (i : Nat), idxOfAux c l = some i → l[i]? = some c := by
  intro l
  induction l with
  | nil => intro c i h; simp [idxOfAux] at h
  | cons d rest ih =>
    intro c i h
    by_cases hd : d = c
    · simp only [idxOfAux, hd, if_true] at h
      have : i = 0 := (Option.some.inj h).symm
      subst this
      simp [hd]
    · simp only [idxOfAux, hd, if_false, Option.map_eq_some'] at h
      obtain ⟨j, hj, rfl⟩ := h
      simpa using ih c j hj

/-- An element found by `getElem?` is a member. -/
theorem mem_of_getElem?_eq {α : Type} (l : List α) (n : Nat) (c : α)
    (h : l[n]? = some c) : c ∈ l := by
  have hn : n < l.length := by
    by_contra hc
    rw [List.getElem?_eq_none (by omega)] at h
    cases h
  rw [List.getElem?_eq_getElem hn] at h
  exact (Option.some.inj h) ▸ List.getElem_mem hn

/-- A character stored at index `i` lies in the `[lo, lo + n)` slice
whenever `lo ≤ i < lo + n`. -/
theorem mem_slice_of_getElem? (l : List Char) (lo n i : Nat) (c : Char)
    (h1 : lo ≤ i) (h2 : i < lo + n) (h3 : l[i]? = some c) :
    c ∈ (l.drop lo).take n := by
  refine mem_of_getElem?_eq _ (i - lo) c ?_
  rw [List.getElem?_take, if_pos (by omega), List.getElem?_drop,
    show lo + (i - lo) = i from by omega]
  exact h3

/-- Branch analysis of `_expand_letter_range` when both (lowered)
endpoints are single letters of the same alphabet: the result is the
inclusive slice of that alphabet between the endpoints' indices. -/
theorem expand_letter_range_slice (a b : String) (ca cb : Char) (alpha : List Char)
    (hA : (pyLowerStr a).data = [ca]) (hB : (pyLowerStr b).data = [cb])
    (halpha : (alpha = latAlphabet ∧ ca ∈ latAlphabet ∧ cb ∈ latAlphabet) ∨
              (alpha = cyrAlphabet ∧ ca ∈ cyrAlphabet ∧ cb ∈ cyrAlphabet)) :
    ∃ ia ib,
      idxOfAux ca alpha = some ia ∧ idxOfAux cb alpha = some ib ∧
      expand_letter_range a b =
        ((alpha.drop (if ib < ia then ib else ia)).take
          ((if ib < ia then ia else ib) + 1 - (if ib < ia then ib else ia))).map
          (fun c => String.mk [c]) := by
  have hca : ca ∈ alpha := by
    rcases halpha with ⟨rfl, h, _⟩ | ⟨rfl, h, _⟩ <;> exact h
  have hcb : cb ∈ alpha := by
    rcases halpha with ⟨rfl, _, h⟩ | ⟨rfl, _, h⟩ <;> exact h
  obtain ⟨ia, hia⟩ := idxOfAux_some_of_mem alpha ca hca
  obtain ⟨ib, hib⟩ := idxOfAux_some_of_mem alpha cb hcb
  refine ⟨ia, ib, hia, hib, ?_⟩
  rcases halpha with ⟨rfl, h1, h2⟩ | ⟨rfl, h1, h2⟩
  · have f1 := latAlphabet_facts ca h1
    have f2 := latAlphabet_facts cb h2
    unfold expand_letter_range
    rw [hA, hB]
    simp only [f1.1, f2.1, Bool.and_self, Bool.not_true, Bool.false_eq_true, if_false,
      f1.2.1, f2.2.1, bne_self_eq_false, if_true, hia, hib]
  · have f1 := cyrAlphabet_facts ca h1
    have f2 := cyrAlphabet_facts cb h2
    unfold expand_letter_range
    rw [hA, hB]
    simp only [f1.1, f2.1, Bool.and_self, Bool.not_true, Bool.false_eq_true, if_false,
      f1.2.1, f2.2.1, bne_self_eq_false, Bool.false_eq_true, if_true, hia, hib]

/-- Branch analysis of `_expand_letter_range` when the (lowered)
endpoints are single letters of different alphabets: no expansion. -/
theorem expand_letter_range_mixed (a b : String) (ca cb : Char)
    (hA : (pyLowerStr a).data = [ca]) (hB : (pyLowerStr b).data = [cb])
    (halpha : (ca ∈ latAlphabet ∧ cb ∈ cyrAlphabet) ∨ (ca ∈ cyrAlphabet ∧ cb ∈ latAlphabet)) :
    expand_letter_range a b = [a, b] := by
  rcases halpha with ⟨h1, h2⟩ | ⟨h1, h2⟩
  · have f1 := latAlphabet_facts ca h1
    have f2 := cyrAlphabet_facts cb h2
    unfold expand_letter_range
    rw [hA, hB]
    simp [f1.1, f2.1, f1.2.1, f2.2.1]
  · have f1 := cyrAlphabet_facts ca h1
    have f2 := latAlphabet_facts cb h2
    unfold expand_letter_range
    rw [hA, hB]
    simp [f1.1, f2.1, f1.2.1, f2.2.1]

/-- C5: letter-range expansion.  Concretely, `а-в` expands to а,б,в;
`a-c` to a,b,c; `е-ж` to е,ё,ж (the Cyrillic alphabet carries `ё`
immediately after `е`).  Universally: endpoints whose lowercase forms are
single letters of different alphabets are returned unexpanded as
`[a, b]`, and endpoints of the same alphabet are expanded inclusively —
both (lowered) endpoints occur in the expansion. -/
theorem c5_letter_range_expansion :
    expand_letter_range "а" "в" = ["а", "б", "в"] ∧
    expand_letter_range "a" "c" = ["a", "b", "c"] ∧
    expand_letter_range "е" "ж" = ["е", "ё", "ж"] ∧
    (∀ (a b : String) (ca cb : Char),
      (pyLowerStr a).data = [ca] → (pyLowerStr b).data = [cb] →
      ((ca ∈ latAlphabet ∧ cb ∈ cyrAlphabet) ∨ (ca ∈ cyrAlphabet ∧ cb ∈ latAlphabet)) →
      expand_letter_range a b = [a, b]) ∧
    (∀ (a b : String) (ca cb : Char),
      (pyLowerStr a).data = [ca] → (pyLowerStr b).data = [cb] →
      ((ca ∈ latAlphabet ∧ cb ∈ latAlphabet) ∨ (ca ∈ cyrAlphabet ∧ cb ∈ cyrAlphabet)) →
      String.mk [ca] ∈ expand_letter_range a b ∧ String.mk [cb] ∈ expand_letter_range a b) := by
  refine ⟨by decide, by decide, by decide, ?_, ?_⟩
  · intro a b ca cb hA hB halpha
    exact expand_letter_range_mixed a b ca cb hA hB halpha
  · intro a b ca cb hA hB halpha
    have halpha' :
        ((if ca ∈ latAlphabet then latAlphabet else cyrAlphabet) = latAlphabet ∧
          ca ∈ latAlphabet ∧ cb ∈ latAlphabet) ∨
        ((if ca ∈ latAlphabet then latAlphabet else cyrAlphabet) = cyrAlphabet ∧
          ca ∈ cyrAlphabet ∧ cb ∈ cyrAlphabet) := by
      rcases halpha with ⟨h1, h2⟩ | ⟨h1, h2⟩
      · exact Or.inl ⟨by simp [h1], h1, h2⟩
      · refine Or.inr ⟨?_, h1, h2⟩
        have : ca ∉ latAlphabet := by
          intro hc
          exact absurd (cyrAlphabet_facts ca h1).2.1
            (by rw [(latAlphabet_facts ca hc).2.1]; simp)
        simp [this]
    obtain ⟨ia, ib, hia, hib, heq⟩ :=
      expand_letter_range_slice a b ca cb _ hA hB halpha'
    have hga := idxOfAux_getElem? _ ca ia hia
    have hgb := idxOfAux_getElem? _ cb ib hib
    rw [heq]
    constructor
    · refine List.mem_map.mpr ⟨ca, ?_, rfl⟩
      by_cases hsw : ib < ia
      · rw [if_pos hsw, if_pos hsw]
        exact mem_slice_of_getElem? _ _ _ ia ca (by omega) (by omega) hga
      · rw [if_neg hsw, if_neg hsw]
        exact mem_slice_of_getElem? _ _ _ ia ca (by omega) (by omega) hga
    · refine List.mem_map.mpr ⟨cb, ?_, rfl⟩
      by_cases hsw : ib < ia
      · rw [if_pos hsw, if_pos hsw]
        exact mem_slice_of_getElem? _ _ _ ib cb (by omega) (by omega) hgb
      · rw [if_neg hsw, if_neg hsw]
        exact mem_slice_of_getElem? _ _ _ ib cb (by omega) (by omega) hgb

/-- C5 witness: a Latin/Cyrillic endpoint pair is returned unexpanded,
and a same-alphabet pair contains its endpoints. -/
theorem c5_letter_range_expansion_witness :
    expand_letter_range "a" "б" = ["a", "б"] ∧
    String.mk ['б'] ∈ expand_letter_range "б" "г" := by
  constructor
  · exact c5_letter_range_expansion.2.2.2.1 "a" "б" 'a' 'б' (by decide) (by decide)
      (Or.inl ⟨by decide, by decide⟩)
  · exact (c5_letter_range_expansion.2.2.2.2 "б" "г" 'б' 'г' (by decide) (by decide)
      (Or.inr ⟨by decide, by decide⟩)).1

/-- C10: letter-range expansion lowercases.  Concretely the uppercase
Cyrillic pair `А`-`В` expands to the lowercase `["а","б","в"]`;
universally, for endpoints whose lowercase forms are single letters of
the same alphabet, every element of the expansion is a one-character
lowercase letter string. -/
theorem c10_letter_range_lowercases :
    expand_letter_range "А" "В" = ["а", "б", "в"] ∧
    (∀ (a b : String) (ca cb : Char),
      (pyLowerStr a).data = [ca] → (pyLowerStr b).data = [cb] →
      ((ca ∈ latAlphabet ∧ cb ∈ latAlphabet) ∨ (ca ∈ cyrAlphabet ∧ cb ∈ cyrAlphabet)) →
      ∀ x ∈ expand_letter_range a b, x.data.all isLowercaseLetter = true) := by
  refine ⟨by decide, ?_⟩
  intro a b ca cb hA hB halpha x hx
  have halpha' :
      ((if ca ∈ latAlphabet then latAlphabet else cyrAlphabet) = latAlphabet ∧
        ca ∈ latAlphabet ∧ cb ∈ latAlphabet) ∨
      ((if ca ∈ latAlphabet then latAlphabet else cyrAlphabet) = cyrAlphabet ∧
        ca ∈ cyrAlphabet ∧ cb ∈ cyrAlphabet) := by
    rcases halpha with ⟨h1, h2⟩ | ⟨h1, h2⟩
    · exact Or.inl ⟨by simp [h1], h1, h2⟩
    · refine Or.inr ⟨?_, h1, h2⟩
      have : ca ∉ latAlphabet := by
        intro hc
        exact absurd (cyrAlphabet_facts ca h1).2.1
          (by rw [(latAlphabet_facts ca hc).2.1]; simp)
      simp [this]
  obtain ⟨ia, ib, hia, hib, heq⟩ :=
    expand_letter_range_slice a b ca cb _ hA hB halpha'
  rw [heq] at hx
  obtain ⟨c, hc, rfl⟩ := List.mem_map.mp hx
  have hmem : c ∈ (if ca ∈ latAlphabet then latAlphabet else cyrAlphabet) := by
    have h1 := List.take_subset _ _ hc
    exact List.drop_subset _ _ h1
  have hlow : isLowercaseLetter c = true := by
    by_cases hcl : ca ∈ latAlphabet
    · rw [if_pos hcl] at hmem
      exact (latAlphabet_facts c hmem).2.2
    · rw [if_neg hcl] at hmem
      exact (cyrAlphabet_facts c hmem).2.2
  simp [hlow]

/-- C10 witness: all elements of the uppercase-endpoint expansion
`Б`-`Г` are lowercase one-letter strings. -/
theorem c10_letter_range_lowercases_witness :
    ∀ x ∈ expand_letter_range "Б" "Г", x.data.all isLowercaseLetter = true :=
  c10_letter_range_lowercases.2 "Б" "Г" 'б' 'г' (by decide) (by decide)
    (Or.inr ⟨by decide, by decide⟩)

/-!
Splitter lemmas for C9.
-/

/-- Dropping a prefix never lengthens a list. -/
theorem dropWhile_length_le {α : Type} (p : α → Bool) (l : List α) :
    (l.dropWhile p).length ≤ l.length := by
  induction l with
  | nil => simp
  | cons x xs ih =>
    rw [List.dropWhile_cons]
    split
    · simp only [List.length_cons]; omega
    · simp

/-- A successful literal match consumes exactly the pattern's length. -/
theorem matchLit_length :
    ∀ (ps l rem : List Char), matchLit ps l = some rem →
      rem.length + ps.length = l.length := by
  intro ps
  induction ps with
  | nil =>
    intro l rem h
    simp only [matchLit, Option.some.injEq] at h
    subst h
    simp
  | cons p ps ih =>
    intro l rem h
    cases l with
    | nil => simp [matchLit] at h
    | cons c rest =>
      by_cases hp : pyLower c = p
      · simp only [matchLit, hp, if_true] at h
        have := ih rest rem h
        simp only [List.length_cons]
        omega
      · simp [matchLit, hp] at h

/-- A first-match over a pattern list comes from one of the patterns. -/
theorem findSome?_eq_some {α β : Type} :
    ∀ (l : List α) (f : α → Option β) (b : β),
      l.findSome? f = some b → ∃ a ∈ l, f a = some b := by
  intro l
  induction l with
  | nil => intro f b h; simp [List.findSome?] at h
  | cons x xs ih =>
    intro f b h
    rw [List.findSome?_cons] at h
    cases hx : f x with
    | some y =>
      rw [hx] at h
      exact ⟨x, by simp, by rw [hx]; exact h⟩
    | none =>
      rw [hx] at h
      obtain ⟨a, ha, hfa⟩ := ih f b h
      exact ⟨a, by simp [ha], hfa⟩

/-- If some pattern matches, the first-match succeeds. -/
theorem findSome?_isSome {α β : Type} :
    ∀ (l : List α) (f : α → Option β) (a : α), a ∈ l → (f a).isSome →
      (l.findSome? f).isSome := by
  intro l
  induction l with
  | nil => intro f a ha; cases ha
  | cons x xs ih =>
    intro f a ha hfa
    rw [List.findSome?_cons]
    cases hx : f x with
    | some y => simp
    | none =>
      rcases List.mem_cons.mp ha with rfl | ha'
      · rw [hx] at hfa; cases hfa
      · exact ih f a ha' hfa

/-- A successful connector match strictly shortens the input. -/
theorem connAt_shorter (l rem : List Char) (h : connAt l = some rem) :
    rem.length < l.length := by
  obtain ⟨p, hp, hm⟩ := findSome?_eq_some _ _ _ h
  have hlen := matchLit_length p l rem hm
  have hne : p ≠ [] := by
    simp only [connPatterns, List.mem_cons, List.not_mem_nil, or_false] at hp
    rcases hp with rfl | rfl | rfl | rfl | rfl | rfl <;> decide
  have : 0 < p.length := List.length_pos.mpr hne
  omega

/-- A successful separator match strictly shortens the input. -/
theorem trySep_shorter (l rem : List Char) (h : trySep l = some rem) :
    rem.length < l.length := by
  unfold trySep at h
  cases hc : connAt (l.dropWhile isPyWs) with
  | none => rw [hc] at h; cases h
  | some r =>
    rw [hc] at h
    have h1 := connAt_shorter _ r hc
    have h2 := dropWhile_length_le isPyWs l
    have h3 := dropWhile_length_le isPyWs r
    have : rem = r.dropWhile isPyWs := (Option.some.inj h).symm
    subst this
    omega

/-- Characters on which the separator never fails: a comma, a semicolon,
or the letter `и`/`И` at the head always produces a separator match. -/
theorem trySep_none_good (c : Char) (rest : List Char)
    (h : trySep (c :: rest) = none) :
    ¬(c = ',' ∨ c = ';' ∨ c = 'и' ∨ c = 'И') := by
  intro hc
  have hnw : isPyWs c = false := by
    rcases hc with rfl | rfl | rfl | rfl <;> decide
  have hdrop : (c :: rest).dropWhile isPyWs = c :: rest := by
    rw [List.dropWhile_cons, hnw]
    simp
  have hand : pyLower c = ',' ∨ pyLower c = ';' ∨ pyLower c = 'и' := by
    rcases hc with rfl | rfl | rfl | rfl
    · exact Or.inl (by decide)
    · exact Or.inr (Or.inl (by decide))
    · exact Or.inr (Or.inr (by decide))
    · exact Or.inr (Or.inr (by decide))
  have hwit : ∃ p0, p0 ∈ connPatterns ∧ matchLit p0 (c :: rest) = some rest := by
    rcases hand with hl | hl | hl
    · refine ⟨[','], by decide, ?_⟩
      rw [show matchLit [','] (c :: rest) =
        (if pyLower c = ',' then matchLit [] rest else none) from rfl, if_pos hl]
      rfl
    · refine ⟨[';'], by decide, ?_⟩
      rw [show matchLit [';'] (c :: rest) =
        (if pyLower c = ';' then matchLit [] rest else none) from rfl, if_pos hl]
      rfl
    · refine ⟨['и'], by decide, ?_⟩
      rw [show matchLit ['и'] (c :: rest) =
        (if pyLower c = 'и' then matchLit [] rest else none) from rfl, if_pos hl]
      rfl
  obtain ⟨p0, hp0mem, hp0⟩ := hwit
  have hsome : (connAt ((c :: rest).dropWhile isPyWs)).isSome := by
    rw [hdrop]
    unfold connAt
    exact findSome?_isSome _ _ p0 hp0mem (by rw [hp0]; rfl)
  unfold trySep at h
  cases hcc : connAt ((c :: rest).dropWhile isPyWs) with
  | none => rw [hcc] at hsome; cases hsome
  | some r => rw [hcc] at h; cases h

/-- Every character of every piece produced by the split scanner either
came from the accumulator or is a character on which the separator match
failed. -/
theorem reSplitAux_chars :
    ∀ (fuel : Nat) (l acc : List Char),
      l.length ≤ fuel →
      (∀ c ∈ acc, ¬(c = ',' ∨ c = ';' ∨ c = 'и' ∨ c = 'И')) →
      ∀ piece ∈ reSplitAux fuel acc l, ∀ ch ∈ piece,
        ¬(ch = ',' ∨ ch = ';' ∨ ch = 'и' ∨ ch = 'И') := by
  intro fuel
  induction fuel with
  | zero =>
    intro l acc hl hacc piece hp ch hch
    have : l = [] := List.length_eq_zero.mp (Nat.le_zero.mp hl)
    subst this
    rw [show reSplitAux 0 acc [] = [acc.reverse] from rfl] at hp
    rw [List.mem_singleton] at hp
    subst hp
    exact hacc ch (List.mem_reverse.mp hch)
  | succ fuel ih =>
    intro l acc hl hacc piece hp ch hch
    cases l with
    | nil =>
      rw [show reSplitAux (fuel + 1) acc [] = [acc.reverse] from rfl] at hp
      rw [List.mem_singleton] at hp
      subst hp
      exact hacc ch (List.mem_reverse.mp hch)
    | cons c rest =>
      rw [show reSplitAux (fuel + 1) acc (c :: rest) =
        (match trySep (c :: rest) with
          | some rem => acc.reverse :: reSplitAux fuel [] rem
          | none => reSplitAux fuel (c :: acc) rest) from rfl] at hp
      cases hts : trySep (c :: rest) with
      | some rem =>
        rw [hts] at hp
        rcases List.mem_cons.mp hp with rfl | hp'
        · exact hacc ch (List.mem_reverse.mp hch)
        · have hrem : rem.length ≤ fuel := by
            have h2 := trySep_shorter _ _ hts
            simp only [List.length_cons] at h2 hl
            omega
          exact ih rem [] hrem (by simp) piece hp' ch hch
      | none =>
        rw [hts] at hp
        have hgood : ¬(c = ',' ∨ c = ';' ∨ c = 'и' ∨ c = 'И') :=
          trySep_none_good c rest hts
        have hacc' : ∀ d ∈ c :: acc, ¬(d = ',' ∨ d = ';' ∨ d = 'и' ∨ d = 'И') := by
          intro d hd
          rcases List.mem_cons.mp hd with rfl | hd'
          · exact hgood
          · exact hacc d hd'
        have hrest : rest.length ≤ fuel := by
          simp only [List.length_cons] at hl
          omega
        exact ih rest (c :: acc) hrest hacc' piece hp ch hch

/-- Letters are not Python whitespace. -/
theorem letter_not_ws (c : Char) (h : isLetterChar c = true) : isPyWs c = false := by
  by_contra hw
  rw [Bool.not_eq_false] at hw
  simp only [isPyWs, Bool.or_eq_true, decide_eq_true_eq] at hw
  rcases hw with ((((((rfl | rfl) | rfl) | rfl) | rfl) | rfl) | rfl) | rfl <;>
    simp [isLetterChar] at h

/-- C9 counterexample: the source's `re.split` connector pattern has no
word boundaries, so the fragment `"аи"` — in which the letter `и` occurs
only letter-adjacent, hence never word-bounded — is nevertheless split,
yielding `["а"]` instead of the claimed `["аи"]`. -/
theorem c9_splitter_counterexample :
    split_by_commas_and_conj "аи" ≠ ["аи"] ∧
    split_by_commas_and_conj "аи" = ["а"] :=
  ⟨by decide, by decide⟩

/-- C9 (amended): a one-letter fragment is returned as the single value
`[fragment]`; otherwise the fragment is split at every case-insensitive
occurrence of the connectors and of commas/semicolons regardless of word
boundaries, so each returned piece is nonempty and contains no comma,
semicolon, or letter и/И. -/
theorem c9_splitter_amended :
    (∀ c : Char, isLetterChar c = true →
      split_by_commas_and_conj (String.mk [c]) = [String.mk [c]]) ∧
    (∀ s : String, isLetterStr (pyStrip s) = false →
      ∀ p ∈ split_by_commas_and_conj s, p ≠ "" ∧
        ∀ ch ∈ p.data, ¬(ch = ',' ∨ ch = ';' ∨ ch = 'и' ∨ ch = 'И')) := by
  constructor
  · intro c hc
    have hnw : isPyWs c = false := letter_not_ws c hc
    have hstrip : pyStrip (String.mk [c]) = String.mk [c] := by
      unfold pyStrip stripList
      rw [show (String.mk [c]).data = [c] from rfl]
      simp [List.dropWhile_cons, hnw]
    have hne : String.mk [c] ≠ "" := by
      intro heq
      rw [String.ext_iff] at heq
      simp at heq
    unfold split_by_commas_and_conj
    rw [hstrip, if_neg hne]
    rw [show (match (String.mk [c]).data with
        | [c] => isLetterChar c
        | _ => false) = isLetterChar c from rfl, hc]
    simp
  · intro s hs p hp
    simp only [split_by_commas_and_conj] at hp
    by_cases hemp : pyStrip s = ""
    · rw [if_pos hemp] at hp
      cases hp
    · rw [if_neg hemp] at hp
      rw [show (match (pyStrip s).data with
          | [c] => isLetterChar c
          | _ => false) = isLetterStr (pyStrip s) from rfl, hs] at hp
      simp only [Bool.false_eq_true, if_false] at hp
      rw [List.mem_filter] at hp
      obtain ⟨hp1, hp2⟩ := hp
      refine ⟨by simpa using hp2, ?_⟩
      obtain ⟨piece, hpiece, rfl⟩ := List.mem_map.mp hp1
      intro ch hch
      exact reSplitAux_chars _ _ [] (le_refl _) (by simp) piece hpiece ch hch

/-- C9 witness: the single-letter connector word `и` is kept as a value,
and the pieces of `"а,б"` are nonempty and connector-free. -/
theorem c9_splitter_amended_witness :
    split_by_commas_and_conj (String.mk ['и']) = [String.mk ['и']] ∧
    ∀ p ∈ split_by_commas_and_conj "а,б", p ≠ "" ∧
      ∀ ch ∈ p.data, ¬(ch = ',' ∨ ch = ';' ∨ ch = 'и' ∨ ch = 'И') :=
  ⟨c9_splitter_amended.1 'и' (by decide),
   c9_splitter_amended.2 "а,б" (by decide)⟩

/-!
Ordering lemmas for C7.
-/

/-- The seen-set loop equals the specification-level first-occurrence
deduplication of the not-yet-seen elements. -/
theorem dedupSeenAux_eq_specFirstOccur {α : Type} [DecidableEq α] :
    ∀ (l seen : List α),
      dedupSeenAux seen l = specFirstOccur (l.filter (fun x => decide (x ∉ seen))) := by
  intro l
  induction l with
  | nil =>
    intro seen
    simp [dedupSeenAux, specFirstOccur]
  | cons x xs ih =>
    intro seen
    by_cases hx : x ∈ seen
    · rw [show dedupSeenAux seen (x :: xs) = dedupSeenAux seen xs from by
        simp [dedupSeenAux, hx]]
      rw [ih seen, List.filter_cons]
      simp [hx]
    · rw [show dedupSeenAux seen (x :: xs) = x :: dedupSeenAux (x :: seen) xs from by
        simp [dedupSeenAux, hx]]
      rw [ih (x :: seen), List.filter_cons]
      rw [show (decide (x ∉ seen)) = true from by simp [hx]]
      simp only [if_true]
      rw [show specFirstOccur (x :: xs.filter (fun y => decide (y ∉ seen))) =
        x :: specFirstOccur ((xs.filter (fun y => decide (y ∉ seen))).filter
          (fun y => decide (y ≠ x))) from by rw [specFirstOccur]]
      rw [List.filter_filter]
      refine congrArg (x :: ·) (congrArg specFirstOccur (List.filter_congr ?_))
      intro a _
      by_cases h1 : a = x <;> by_cases h2 : a ∈ seen <;>
        simp [h1, h2, List.mem_cons]

/-- The seen-set loop started empty is exactly first-occurrence
deduplication. -/
theorem dedupSeenAux_nil_eq_specFirstOccur {α : Type} [DecidableEq α] (l : List α) :
    dedupSeenAux [] l = specFirstOccur l := by
  rw [dedupSeenAux_eq_specFirstOccur]
  refine congrArg specFirstOccur ?_
  exact List.filter_eq_self.mpr (fun a _ => by simp)

/-- Reflexivity of `spanLe`. -/
theorem spanLe_refl (sp : Span) : spanLe sp sp :=
  Or.inr ⟨rfl, Nat.le_refl _⟩

/-- Spans all equal to one value are pairwise `spanLe`-related. -/
theorem pairwise_spanLe_const :
    ∀ (l : List Span) (sp : Span), (∀ x ∈ l, x = sp) → List.Pairwise spanLe l := by
  intro l
  induction l with
  | nil => intro sp _; exact List.Pairwise.nil
  | cons x xs ih =>
    intro sp h
    refine List.pairwise_cons.mpr ⟨fun y hy => ?_, ih sp (fun y hy => h y (by simp [hy]))⟩
    rw [h x (by simp), h y (by simp [hy])]
    exact spanLe_refl sp

/-- All items of one match's Cartesian expansion carry the match's span. -/
theorem cartItems_span (lid : Nat) (arts pnts subs : List (Option String)) (sp : Span) :
    ∀ it ∈ cartItems lid arts pnts subs sp, it.span = sp := by
  intro it hit
  simp only [cartItems, List.mem_flatMap, List.mem_map] at hit
  obtain ⟨a, _, p, _, s, _, rfl⟩ := hit
  rfl

/-- Raw items produced from a span-sorted match list have nondecreasing
spans, and every raw item's span is one of the matches' spans. -/
theorem rawItems_sorted_spans :
    ∀ (ms : List ReMatch) (raw : List RawItem),
      List.Pairwise matchLe ms → rawItemsOfMatches ms = some raw →
      List.Pairwise spanLe (raw.map RawItem.span) ∧
      ∀ it ∈ raw, ∃ m ∈ ms, it.span = (m.mstart, m.mend) := by
  intro ms
  induction ms with
  | nil =>
    intro raw _ hr
    simp only [rawItemsOfMatches, Option.some.injEq] at hr
    subst hr
    exact ⟨List.Pairwise.nil, by simp⟩
  | cons m ms ih =>
    intro raw hpw hr
    have hms : List.Pairwise matchLe ms := hpw.of_cons
    have hrel : ∀ m' ∈ ms, matchLe m m' := (List.pairwise_cons.mp hpw).1
    cases hl : m.lawId with
    | none =>
      rw [show rawItemsOfMatches (m :: ms) = rawItemsOfMatches ms from by
        simp [rawItemsOfMatches, hl]] at hr
      obtain ⟨h1, h2⟩ := ih raw hms hr
      refine ⟨h1, fun it hit => ?_⟩
      obtain ⟨m', hm', hsp⟩ := h2 it hit
      exact ⟨m', List.mem_cons_of_mem _ hm', hsp⟩
    | some lid =>
      cases h1 : parse_values m.articleVals false with
      | none =>
        rw [show rawItemsOfMatches (m :: ms) = none from by
          simp [rawItemsOfMatches, hl, h1]] at hr
        cases hr
      | some arts =>
      cases h2 : parse_values m.pointVals true with
      | none =>
        rw [show rawItemsOfMatches (m :: ms) = none from by
          simp [rawItemsOfMatches, hl, h1, h2]] at hr
        cases hr
      | some pnts =>
      cases h3 : parse_values m.subpVals true with
      | none =>
        rw [show rawItemsOfMatches (m :: ms) = none from by
          simp [rawItemsOfMatches, hl, h1, h2, h3]] at hr
        cases hr
      | some subs =>
      cases h4 : rawItemsOfMatches ms with
      | none =>
        rw [show rawItemsOfMatches (m :: ms) = none from by
          simp [rawItemsOfMatches, hl, h1, h2, h3, h4]] at hr
        cases hr
      | some rest =>
        rw [show rawItemsOfMatches (m :: ms) =
          some (cartItems lid (axisOr arts) (axisOr pnts) (axisOr subs)
            (m.mstart, m.mend) ++ rest) from by
          simp [rawItemsOfMatches, hl, h1, h2, h3, h4]] at hr
        have hreq := Option.some.inj hr
        subst hreq
        obtain ⟨ihs, ihm⟩ := ih rest hms h4
        constructor
        · rw [List.map_append, List.pairwise_append]
          refine ⟨pairwise_spanLe_const _ (m.mstart, m.mend) ?_, ihs, ?_⟩
          · intro x hx
            obtain ⟨it, hit, rfl⟩ := List.mem_map.mp hx
            exact cartItems_span _ _ _ _ _ it hit
          · intro x hx y hy
            obtain ⟨itx, hitx, rfl⟩ := List.mem_map.mp hx
            obtain ⟨ity, hity, rfl⟩ := List.mem_map.mp hy
            rw [cartItems_span _ _ _ _ _ itx hitx]
            obtain ⟨m', hm', hsp⟩ := ihm ity hity
            rw [hsp]
            exact hrel m' hm'
        · intro it hit
          rcases List.mem_append.mp hit with hit' | hit'
          · exact ⟨m, by simp, cartItems_span _ _ _ _ _ it hit'⟩
          · obtain ⟨m', hm', hsp⟩ := ihm it hit'
            exact ⟨m', List.mem_cons_of_mem _ hm', hsp⟩

/-- C7: ordering guarantees.  For any engine behaviour, the raw items of
a successful `detect_links` invocation (built from the `(start, end)`-
sorted matches, each match expanded in the fixed Cartesian iteration
order of `cartItems`) have nondecreasing spans, and the final list is
exactly the first-occurrence deduplication of the pruned items — i.e.
distinct tuples appear in the order they were first produced. -/
theorem c7_ordering_guarantees (fi : Finditer) (t : String) (A : AliasDict)
    (raw : List RawItem)
    (hraw : rawItemsOfMatches (sortedMatches fi t A) = some raw) :
    List.Pairwise spanLe (raw.map RawItem.span) ∧
    detect_links fi t A =
      some (specFirstOccur ((prune_less_specific raw).map toRef)) := by
  have hsorted : List.Pairwise matchLe (sortedMatches fi t A) :=
    List.sorted_insertionSort matchLe (fi A (normalize_text t))
  obtain ⟨h1, _⟩ := rawItems_sorted_spans _ raw hsorted hraw
  refine ⟨h1, ?_⟩
  unfold detect_links
  rw [hraw]
  show some (dedupSeenAux [] ((prune_less_specific raw).map toRef)) =
    some (specFirstOccur ((prune_less_specific raw).map toRef))
  rw [dedupSeenAux_nil_eq_specFirstOccur]

/-- C7 witness: a concrete single-match engine output with its sorted
spans and first-occurrence-deduplicated result. -/
theorem c7_ordering_guarantees_witness :
    List.Pairwise spanLe
      (([⟨15, some "5", none, none, (0, 5)⟩] : List RawItem).map RawItem.span) ∧
    detect_links (fun _ _ => [⟨0, 5, some 15, some "5", none, none⟩]) "" [("15", ["НК РФ"])] =
      some (specFirstOccur
        ((prune_less_specific [⟨15, some "5", none, none, (0, 5)⟩]).map toRef)) :=
  c7_ordering_guarantees (fun _ _ => [⟨0, 5, some 15, some "5", none, none⟩]) ""
    [("15", ["НК РФ"])] [⟨15, some "5", none, none, (0, 5)⟩] (by decide)
